import Mathlib

/-!
Shallow embedding of the goflyway obfuscation core (`src/proxy/util.go`) and
proofs about it.

Modelling conventions:
* Go strings are byte strings; they are embedded as `List Char` (ASCII bytes
  become the corresponding characters).  `Str` abbreviates this type.
* Go `uint32` values are embedded as `Nat`; the bitwise operations used by
  the code (`|`, `&`, and subtraction of an OR-ed-in mask) never overflow a
  value that is in range, so no explicit `% 2^32` is required.
* Functions that can panic in Go (out-of-range slicing) return `Option`,
  with `none` standing for the panic.
* External collaborators (the Base41 codec, the GCM sealed box, the
  descriptor binary codec, the stream cipher) are not part of the embedded
  source file; they appear as explicit parameters or structure fields, and
  theorems assume exactly the properties the corresponding claims grant
  them.
-/

/-- Go strings, embedded as lists of characters (one `Char` per byte). -/
abbrev Str := List Char

/-- Embeds `strings.ToLower` (the source only applies it to ASCII header
names, so per-character lowering is faithful there). -/
def lowerStr (s : Str) : Str := s.map Char.toLower

/-- Embeds Go `strings.Index(s, c)` for a one-byte needle: index of the first
occurrence of `c`, or `-1` when absent. -/
def goIndex (s : Str) (c : Char) : Int :=
  match s with
  | [] => -1
  | a :: rest =>
    if a = c then 0
    else
      let r := goIndex rest c
      if r = -1 then -1 else r + 1

/-- Embeds Go `strings.LastIndex(s, c)` for a one-byte needle: index of the
last occurrence of `c`, or `-1` when absent. -/
def goLastIndex (s : Str) (c : Char) : Int :=
  let r := goIndex s.reverse c
  if r = -1 then -1 else (s.length : Int) - 1 - r

/-- Embeds `buffer.Trunc` from `src/proxy/util.go` lines 117-124: drop the
final byte when it equals `t`. -/
def truncChar (s : Str) (t : Char) : Str :=
  if s.getLast? = some t then s.dropLast else s

/-- Whitespace predicate of Go `strings.TrimSpace` (the ASCII part; the
Unicode space classes are irrelevant to the embedded code paths). -/
def isSpaceGo (c : Char) : Bool :=
  c = ' ' ∨ c = '\t' ∨ c = '\n' ∨ c = Char.ofNat 11 ∨ c = Char.ofNat 12 ∨ c = '\r'

/-- Embeds Go `strings.TrimSpace`. -/
def trimSpace (s : Str) : Str :=
  ((s.dropWhile isSpaceGo).reverse.dropWhile isSpaceGo).reverse

/-! ## Flag register (`Options`, `src/proxy/util.go` lines 82-104) -/

/-- The `Options` register of `src/proxy/util.go` line 82: a 32-bit flag set,
embedded as `Nat` (see the header comment for the overflow discussion). -/
abbrev Options := Nat

/-- Embeds `Options.IsSet` (`src/proxy/util.go` lines 84-86). -/
def Options.IsSet (o : Options) (option : Nat) : Bool :=
  (o &&& option) ≠ 0

/-- Embeds `Options.Set` (`src/proxy/util.go` lines 88-92); the variadic
argument list becomes an explicit list, folded in order. -/
def Options.Set (o : Options) (options : List Nat) : Options :=
  options.foldl (fun a b => a ||| b) o

/-- Embeds `Options.SetBool` (`src/proxy/util.go` lines 94-98). -/
def Options.SetBool (o : Options) (b : Bool) (option : Nat) : Options :=
  if b then Options.Set o [option] else o

/-- Embeds `Options.UnSet` (`src/proxy/util.go` lines 100-104): for each
flag, OR it in and then subtract it out. -/
def Options.UnSet (o : Options) (options : List Nat) : Options :=
  options.foldl (fun a b => (a ||| b) - b) o

/-- Bit-level bookkeeping for the flag register: OR plus AND of two numbers
add up to their sum (no carries are lost). -/
theorem lor_add_land (x f : Nat) : (x ||| f) + (x &&& f) = x + f := by
  induction x using Nat.binaryRec generalizing f with
  | z => simp
  | f b n ih =>
    induction f using Nat.binaryRec with
    | z => simp
    | f c m _ =>
      rw [Nat.lor_bit, Nat.land_bit]
      have hb : ∀ (u : Bool) (k : Nat), Nat.bit u k = 2 * k + (if u then 1 else 0) := by
        intro u k; cases u <;> simp [Nat.bit]
      rw [hb, hb, hb, hb]
      have := ih m
      cases b <;> cases c <;> simp at * <;> omega

/-- Bit-level bookkeeping: `Nat.ldiff x f` (the bits of `x` outside `f`)
plus the common bits `x &&& f` reassemble `x`. -/
theorem ldiff_add_land (x f : Nat) : Nat.ldiff x f + (x &&& f) = x := by
  induction x using Nat.binaryRec generalizing f with
  | z => simp [Nat.ldiff, Nat.bitwise]
  | f b n ih =>
    induction f using Nat.binaryRec with
    | z => simp [Nat.ldiff, Nat.bitwise]
    | f c m _ =>
      rw [Nat.ldiff_bit, Nat.land_bit]
      have hb : ∀ (u : Bool) (k : Nat), Nat.bit u k = 2 * k + (if u then 1 else 0) := by
        intro u k; cases u <;> simp [Nat.bit]
      rw [hb, hb, hb]
      have := ih m
      cases b <;> cases c <;> simp at * <;> omega

/-- C5 counterexample: starting from register `2` and setting then unsetting
flag `1` yields `2`, not `0`, refuting the claim that `UnSet(Set(f))` is `0`
for every starting register value. -/
theorem c5_set_unset_not_zero :
    Options.UnSet (Options.Set 2 [1]) [1] = 2 ∧ (2 : Options) ≠ 0 := by
  constructor
  · decide
  · decide

/-- C5 (amended): applying `Set(f)` and then `UnSet(f)` to a register `r`
clears exactly the bits of `f` and leaves every other bit of `r` untouched:
the result is `Nat.ldiff r f` (that is, `r &&& ~f`), whose bits are those
set in `r` but not in `f`.  It equals `0` only when `r` has no bits outside
`f` (for example when `r = 0`), not for every `r`. -/
theorem c5_set_unset_clears_flag (r f : Nat) :
    Options.UnSet (Options.Set r [f]) [f] = Nat.ldiff r f ∧
      ∀ i, (Options.UnSet (Options.Set r [f]) [f]).testBit i =
        (r.testBit i && !(f.testBit i)) := by
  have hmain : Options.UnSet (Options.Set r [f]) [f] = Nat.ldiff r f := by
    show ((r ||| f) ||| f) - f = Nat.ldiff r f
    rw [Nat.lor_assoc]
    simp only [Nat.or_self]
    have h1 := lor_add_land r f
    have h2 := ldiff_add_land r f
    omega
  refine ⟨hmain, fun i => ?_⟩
  rw [hmain, Nat.testBit_ldiff]

/-! ## Header maps

Go `http.Header` is a map from names to ordered value slices.  The code
below iterates such maps pairwise, so a header is embedded as the flat
ordered list of its (name, value) pairs; theorems quantifying over this
representation cover every map content and every Go iteration order.
`http.Header.Add` canonicalizes only the letter-case of a name, which no
property below depends on (values are looked up case-insensitively), so
`Add` is embedded as plain appending of a pair. -/
abbrev Header := List (Str × Str)

/-- Values carried by header `key` (given in lower case) in `h`, in order,
collecting names case-insensitively. -/
def headerValues (h : Header) (key : Str) : List Str :=
  (h.filter (fun p => lowerStr p.1 == key)).map (fun p => p.2)

/-! ## The Cf- and X-Forwarded- stripping pass of `decryptRequest`
(`src/proxy/util.go` lines 243-253) -/

/-- Embeds the header-stripping loop of `decryptRequest`
(`src/proxy/util.go` lines 243-253).  For each header name `k` the Go code
evaluates `k[:3]`, which panics when `len(k) < 3` (embedded as `none`);
otherwise names matching `Cf-` or (case-insensitively) `x-forwarded-` are
deleted and all others kept.  Go deletes entries of a map while ranging
over it, which only ever removes the entry under scrutiny, so dropping the
current pair is faithful. -/
def decryptRequestStripHeaders : Header → Option Header
  | [] => some []
  | (k, v) :: rest =>
    if k.length < 3 then none
    else if k.take 3 = "Cf-".toList ∨
        (12 < k.length ∧ lowerStr (k.take 12) = "x-forwarded-".toList) then
      decryptRequestStripHeaders rest
    else
      match decryptRequestStripHeaders rest with
      | none => none
      | some t => some ((k, v) :: t)

/-- C6: the stripping pass of `decryptRequest` is not total: any header
whose name is shorter than 3 bytes makes `k[:3]` panic (modelled by
`none`), and the pass completes whenever every name has at least 3 bytes. -/
theorem c6_stripHeaders_totality (h : Header) :
    ((∃ p ∈ h, p.1.length < 3) → decryptRequestStripHeaders h = none) ∧
    ((∀ p ∈ h, 3 ≤ p.1.length) → (decryptRequestStripHeaders h).isSome) := by
  induction h with
  | nil =>
    refine ⟨fun hex => ?_, fun _ => by simp [decryptRequestStripHeaders]⟩
    obtain ⟨p, hp, _⟩ := hex
    exact absurd hp (List.not_mem_nil p)
  | cons a rest ih =>
    obtain ⟨k, v⟩ := a
    constructor
    · rintro ⟨p, hp, hlen⟩
      rcases List.mem_cons.mp hp with rfl | hmem
      · simp [decryptRequestStripHeaders, hlen]
      · by_cases hk : k.length < 3
        · simp [decryptRequestStripHeaders, hk]
        · have hrest : decryptRequestStripHeaders rest = none := ih.1 ⟨p, hmem, hlen⟩
          simp only [decryptRequestStripHeaders, if_neg hk]
          split
          · exact hrest
          · rw [hrest]
    · intro hall
      have hk : 3 ≤ k.length := hall (k, v) (List.mem_cons_self _ _)
      have hrest := ih.2 (fun p hp => hall p (List.mem_cons_of_mem _ hp))
      obtain ⟨t, ht⟩ := Option.isSome_iff_exists.mp hrest
      have hk' : ¬ k.length < 3 := by omega
      simp only [decryptRequestStripHeaders, if_neg hk']
      split
      · simp [ht]
      · simp [ht]

/-- C6 witness: a `Te` header (2-byte name) panics the pass; a request whose
names all have length at least 3 passes. -/
theorem c6_stripHeaders_totality_witness :
    decryptRequestStripHeaders [("Te".toList, "x".toList)] = none ∧
    (decryptRequestStripHeaders [("Host".toList, "x".toList)]).isSome := by
  constructor
  · exact (c6_stripHeaders_totality [("Te".toList, "x".toList)]).1
      ⟨("Te".toList, "x".toList), by simp, by decide⟩
  · exact (c6_stripHeaders_totality [("Host".toList, "x".toList)]).2
      (by intro p hp; simp at hp; rw [hp]; decide)

/-! ## `basicAuth` (`src/proxy/util.go` lines 318-334) -/

/-- Embeds `ProxyClient.basicAuth` (`src/proxy/util.go` lines 318-334).
The configured shared secret `proxy.UserAuth` and the external
`base64.StdEncoding.DecodeString` collaborator are explicit parameters
(`none` models a decode error). -/
def basicAuth (b64decode : Str → Option Str) (userAuth : Str) (token : Str) : Str :=
  let parts := token.splitOn ' '
  if parts.length ≠ 2 then []
  else
    match b64decode (trimSpace (parts.getD 1 [])) with
    | none => []
    | some pa => if pa = userAuth then pa else []

/-- C7: `basicAuth` returns the configured secret exactly when the
credential splits on spaces into exactly two parts and the trimmed second
part base64-decodes to that secret; in every other case (wrong part count,
decode failure, or decode mismatch) it returns the empty string. -/
theorem c7_basicAuth_characterization (b64decode : Str → Option Str)
    (userAuth token : Str) :
    basicAuth b64decode userAuth token =
      if (token.splitOn ' ').length = 2 ∧
          b64decode (trimSpace ((token.splitOn ' ').getD 1 [])) = some userAuth
      then userAuth else [] := by
  unfold basicAuth
  by_cases h1 : (token.splitOn ' ').length = 2
  · simp only [h1, ne_eq, not_true_eq_false, if_false, true_and]
    cases hb : b64decode (trimSpace ((token.splitOn ' ').getD 1 [])) with
    | none => simp [hb]
    | some pa =>
      by_cases hpa : pa = userAuth
      · subst hpa; simp [hb]
      · simp [hb, hpa]
  · simp [h1]

/-! ## `splitHostPort` (`src/proxy/util.go` lines 342-353) -/

/-- Embeds `splitHostPort` (`src/proxy/util.go` lines 342-353): when the
last `:` sits at a positive index and no `]` occurs at or after it, split
there, lower-casing the host part; otherwise return the whole lower-cased
string with an empty suffix. -/
def splitHostPort (host : Str) : Str × Str :=
  let idx := goLastIndex host ':'
  if 0 < idx then
    let idx2 := goLastIndex host ']'
    if idx2 < idx then (lowerStr (host.take idx.toNat), host.drop idx.toNat)
    else (lowerStr host, [])
  else (lowerStr host, [])

/-- C9 counterexample: `":8080"` has its last (only) `:` at index 0 and
contains no `]`, so the claim as stated predicts the split
`("", ":8080")`; the code does not split because `strings.LastIndex`
must return a positive index, and yields `(":8080", "")` instead. -/
theorem c9_splitHostPort_counterexample :
    goLastIndex (":8080".toList) ':' = 0 ∧
    goLastIndex (":8080".toList) ']' = -1 ∧
    splitHostPort (":8080".toList) = (":8080".toList, []) ∧
    splitHostPort (":8080".toList) ≠ (([] : Str), ":8080".toList) := by
  refine ⟨by decide, by decide, by decide, by decide⟩

/-- C9 (amended): `splitHostPort` splits at the last `:` — lower-casing the
part before it — only when that colon sits at a positive index and no `]`
occurs at or after it; in every other case (no colon, colon at index 0, or
a `]` at or after the last colon) the whole lower-cased string is returned
with an empty suffix. -/
theorem c9_splitHostPort_spec (host : Str) :
    (∀ idx : Int, goLastIndex host ':' = idx → 0 < idx →
      goLastIndex host ']' < idx →
      splitHostPort host = (lowerStr (host.take idx.toNat), host.drop idx.toNat)) ∧
    ((goLastIndex host ':' ≤ 0 ∨ goLastIndex host ':' ≤ goLastIndex host ']') →
      splitHostPort host = (lowerStr host, [])) := by
  constructor
  · intro idx h1 h2 h3
    simp only [splitHostPort, h1, if_pos h2, if_pos h3]
  · intro hcase
    rcases hcase with hle | hbr
    · have : ¬ 0 < goLastIndex host ':' := by omega
      simp only [splitHostPort, if_neg this]
    · by_cases hpos : 0 < goLastIndex host ':'
      · have : ¬ goLastIndex host ']' < goLastIndex host ':' := by omega
        simp only [splitHostPort, if_pos hpos, if_neg this]
      · simp only [splitHostPort, if_neg hpos]

/-- C9 witness: the two documented examples, obtained from the amended
theorem at concrete inputs. -/
theorem c9_splitHostPort_spec_witness :
    splitHostPort ("Example.COM:8080".toList) = ("example.com".toList, ":8080".toList) ∧
    splitHostPort ("[::1]".toList) = ("[::1]".toList, []) := by
  constructor
  · exact ((c9_splitHostPort_spec ("Example.COM:8080".toList)).1 11
      (by decide) (by decide) (by decide)).trans (by decide)
  · exact ((c9_splitHostPort_spec ("[::1]".toList)).2 (by decide)).trans (by decide)

/-! ## `stripURI` (`src/proxy/util.go` lines 192-209) -/

/-- Embeds `ProxyServer.stripURI` (`src/proxy/util.go` lines 192-209).
When the URI does not start with `/`, the code slices `uri[8:]`, which
panics for lengths below 8 (`none`); the logging in the `idx == -1`
branch is dropped (the URI is returned unchanged there). -/
def stripURI (uri : Str) : Option Str :=
  if uri.length < 1 then some uri
  else if uri.headD (Char.ofNat 0) ≠ '/' then
    if uri.length < 8 then none
    else
      let idx := goIndex (uri.drop 8) '/'
      if -1 < idx then some (uri.drop (idx.toNat + 1 + 8))
      else some uri
  else some (uri.drop 1)

/-- C10: `stripURI` is not total: every non-empty URI that does not start
with `/` and is shorter than 8 bytes panics on `uri[8:]` (modelled by
`none`); every URI starting with `/` never panics and loses exactly that
leading slash. -/
theorem c10_stripURI_partiality :
    (∀ uri : Str, uri ≠ [] → uri.headD (Char.ofNat 0) ≠ '/' → uri.length < 8 →
      stripURI uri = none) ∧
    (∀ (rest : Str), stripURI ('/' :: rest) = some rest) := by
  constructor
  · intro uri hne hhead hlen
    have h1 : ¬ uri.length < 1 := by
      cases uri with
      | nil => exact absurd rfl hne
      | cons a t => simp
    simp only [stripURI, if_neg h1, if_pos hhead, if_pos hlen]
  · intro rest
    have h1 : ¬ ('/' :: rest : Str).length < 1 := by simp
    have h2 : ¬ (('/' :: rest : Str).headD (Char.ofNat 0) ≠ '/') := by simp
    simp only [stripURI, if_neg h1, if_neg h2, List.drop_one, List.tail_cons]

/-- C10 witness: a 2-byte URI without a leading slash panics; `"/x"` maps
to `"x"`. -/
theorem c10_stripURI_partiality_witness :
    stripURI ("ab".toList) = none ∧ stripURI ("/x".toList) = some ("x".toList) := by
  constructor
  · exact c10_stripURI_partiality.1 ("ab".toList) (by decide) (by decide) (by decide)
  · exact c10_stripURI_partiality.2 ("x".toList)

/-! ## `readUntil` (`src/proxy/util.go` lines 355-387) -/

/-- Embeds the scanning loop of `readUntil` (`src/proxy/util.go` lines
359-380) over a pure byte stream: reads arrive one byte at a time and the
reader reports `EOF` exactly when the stream is exhausted (the behaviour
of `bytes.Buffer` and `strings.Reader`).  The Go loop keeps the last read
byte in `buf[0]` and, crucially, still compares `buf[0]` against
`eoh[eidx]` on the final zero-byte `EOF` read, so the state carries that
stale byte (initially the zero byte from `make([]byte, 1)`).  `none`
models the not-found error (and an out-of-range `eoh[eidx]` for an empty
marker); `some (consumed, remaining)` models a successful return together
with the bytes left unread in the stream. -/
def readUntilLoop (eoh : Str) : Str → Str → Char → Nat → Option (Str × Str)
  | [], resp, last, eidx =>
    match eoh[eidx]? with
    | none => none
    | some b => if last = b ∧ eidx + 1 = eoh.length then some (resp, []) else none
  | c :: rest, resp, _, eidx =>
    match eoh[eidx]? with
    | none => none
    | some b =>
      if c = b then
        if eidx + 1 = eoh.length then some (resp ++ [c], rest)
        else readUntilLoop eoh rest (resp ++ [c]) c (eidx + 1)
      else readUntilLoop eoh rest (resp ++ [c]) c 0

/-- Embeds `readUntil` (`src/proxy/util.go` lines 355-387). -/
def readUntil (r : Str) (eoh : Str) : Option (Str × Str) :=
  readUntilLoop eoh r [] (Char.ofNat 0) 0

/-- C8: on the documented input the scanner does return the consumed bytes
including the marker and leaves `BODY` unread; but on stream `"a"` with
marker `"aa"`, the stream ends before any real match and the code still
returns `"a"` as found instead of the not-found error: the final `EOF`
read leaves the stale previous byte in `buf[0]`, which is compared against
`eoh[eidx]` once more and completes a phantom match. -/
theorem c8_readUntil_eval :
    readUntil ("X: 1\r\n\r\nBODY".toList) ("\r\n\r\n".toList) =
      some ("X: 1\r\n\r\n".toList, "BODY".toList) ∧
    readUntil ("a".toList) ("aa".toList) = some ("a".toList, []) ∧
    readUntil ("a".toList) ("aa".toList) ≠ none := by
  refine ⟨by decide, by decide, by decide⟩

/-! ## The descriptor codec (`encryptClientRequest` / `decryptClientRequest`,
`src/proxy/util.go` lines 401-432) -/

/-- Modelled from the spec: the IV length `ivLen` is declared outside the
embedded source file; the spec fixes the IV at 16 bytes. -/
def ivLen : Nat := 16

/-- Modelled from the spec: the client request descriptor (`clientRequest`)
is declared outside the embedded source file; per spec section 3 it carries
the shared-secret auth string, the real target URL, a capability bitmask
and the 16-byte IV. -/
structure clientRequest where
  Auth : Str
  Real : Str
  Options : Nat
  IV : List Nat
  deriving DecidableEq

/-- The external collaborators of the descriptor codec, over an abstract
text type `τ`: the Base41 text codec (`msg64.Base41Encode/Base41Decode`,
where `none` models `ok == false`), the GCM sealed box
(`Cipher.GCM.Seal/Open` taking a nonce and a byte string, `none` modelling
an open error), and the descriptor binary codec
(`clientRequest.Marshal/Unmarshal` over the three non-IV fields, `none`
modelling an unmarshal error). -/
structure DescriptorCollab (τ : Type) where
  base41Encode : List Nat → τ
  base41Decode : τ → Option (List Nat)
  gcmSeal : List Nat → List Nat → List Nat
  gcmOpen : List Nat → List Nat → Option (List Nat)
  marshal : Str × Str × Nat → List Nat
  unmarshal : List Nat → Option (Str × Str × Nat)

/-- Embeds `ProxyClient.encryptClientRequest` (`src/proxy/util.go` lines
401-405): seal the marshalled descriptor under the first 12 IV bytes,
append the full 16-byte IV, Base41-encode. -/
def encryptClientRequest {τ : Type} (C : DescriptorCollab τ) (r : clientRequest) : τ :=
  C.base41Encode
    (C.gcmSeal (r.IV.take 12) (C.marshal (r.Auth, r.Real, r.Options)) ++ r.IV)

/-- Embeds `ProxyServer.decryptClientRequest` (`src/proxy/util.go` lines
407-432): decode, reject when shorter than the IV, split off the trailing
IV, open under its first 12 bytes, unmarshal, rebuild the descriptor with
the recovered IV.  Every failure returns `nil` (`none`). -/
def decryptClientRequest {τ : Type} (C : DescriptorCollab τ) (url : τ) :
    Option clientRequest :=
  match C.base41Decode url with
  | none => none
  | some buf =>
    if buf.length < ivLen then none
    else
      let iv := buf.drop (buf.length - ivLen)
      let body := buf.take (buf.length - ivLen)
      match C.gcmOpen (iv.take 12) body with
      | none => none
      | some plain =>
        match C.unmarshal plain with
        | none => none
        | some pl => some ⟨pl.1, pl.2.1, pl.2.2, iv⟩

/-- C1: sealing a descriptor with `encryptClientRequest` and opening the
result with `decryptClientRequest` over the same collaborators returns
exactly the original descriptor, IV included, provided the descriptor IV
is 16 bytes and the Base41 codec, the GCM seal/open pair and the
Marshal/Unmarshal pair invert each other (each inversion is assumed only
at the value actually produced on this round trip). -/
theorem c1_clientRequest_roundTrip {τ : Type} (C : DescriptorCollab τ)
    (r : clientRequest)
    (hIV : r.IV.length = ivLen)
    (hB41 : C.base41Decode (C.base41Encode
      (C.gcmSeal (r.IV.take 12) (C.marshal (r.Auth, r.Real, r.Options)) ++ r.IV)) =
      some (C.gcmSeal (r.IV.take 12) (C.marshal (r.Auth, r.Real, r.Options)) ++ r.IV))
    (hGCM : C.gcmOpen (r.IV.take 12)
      (C.gcmSeal (r.IV.take 12) (C.marshal (r.Auth, r.Real, r.Options))) =
      some (C.marshal (r.Auth, r.Real, r.Options)))
    (hM : C.unmarshal (C.marshal (r.Auth, r.Real, r.Options)) =
      some (r.Auth, r.Real, r.Options)) :
    decryptClientRequest C (encryptClientRequest C r) = some r := by
  unfold decryptClientRequest encryptClientRequest
  simp only [hB41]
  have hlen : (C.gcmSeal (r.IV.take 12) (C.marshal (r.Auth, r.Real, r.Options))
      ++ r.IV).length =
      (C.gcmSeal (r.IV.take 12) (C.marshal (r.Auth, r.Real, r.Options))).length
        + ivLen := by
    simp [hIV]
  rw [if_neg (by omega)]
  simp only [hlen, Nat.add_sub_cancel]
  rw [List.drop_left, List.take_left]
  simp only [hGCM, hM]

/-- C1 witness: the round trip evaluated with identity-style collaborators
on a concrete descriptor. -/
theorem c1_clientRequest_roundTrip_witness :
    decryptClientRequest
      ⟨id, some, fun _ p => p, fun _ p => some p,
        fun _ => [7], fun _ => some ("auth".toList, "http://e.com".toList, 3)⟩
      (encryptClientRequest
        ⟨id, some, fun _ p => p, fun _ p => some p,
          fun _ => [7], fun _ => some ("auth".toList, "http://e.com".toList, 3)⟩
        ⟨"auth".toList, "http://e.com".toList, 3, List.range 16⟩) =
      some ⟨"auth".toList, "http://e.com".toList, 3, List.range 16⟩ :=
  c1_clientRequest_roundTrip _ _ (by decide) rfl rfl rfl

/-- C3: `decryptClientRequest` exposes no partial descriptor: whenever the
Base41 decode fails, the decoded byte string is shorter than the 16-byte
IV, the GCM open fails, or the unmarshal fails, the result is the same
`none` outcome. -/
theorem c3_decryptClientRequest_failures {τ : Type} (C : DescriptorCollab τ)
    (url : τ) :
    (C.base41Decode url = none → decryptClientRequest C url = none) ∧
    (∀ buf, C.base41Decode url = some buf →
      (buf.length < ivLen → decryptClientRequest C url = none) ∧
      (C.gcmOpen ((buf.drop (buf.length - ivLen)).take 12)
          (buf.take (buf.length - ivLen)) = none →
        decryptClientRequest C url = none) ∧
      (∀ plain,
        C.gcmOpen ((buf.drop (buf.length - ivLen)).take 12)
          (buf.take (buf.length - ivLen)) = some plain →
        C.unmarshal plain = none → decryptClientRequest C url = none)) := by
  constructor
  · intro hdec
    unfold decryptClientRequest
    simp only [hdec]
  · intro buf hdec
    refine ⟨fun hshort => ?_, fun hopen => ?_, fun plain hopen hum => ?_⟩
    · unfold decryptClientRequest
      simp only [hdec]
      rw [if_pos hshort]
    · unfold decryptClientRequest
      simp only [hdec]
      by_cases hshort : buf.length < ivLen
      · rw [if_pos hshort]
      · rw [if_neg hshort]
        simp only [hopen]
    · unfold decryptClientRequest
      simp only [hdec]
      by_cases hshort : buf.length < ivLen
      · rw [if_pos hshort]
      · rw [if_neg hshort]
        simp only [hopen, hum]

/-- C3 witness: the four failure branches evaluated on concrete
collaborators (failing decode, short buffer, failing open, failing
unmarshal). -/
theorem c3_decryptClientRequest_failures_witness :
    decryptClientRequest
      (⟨id, fun _ => none, fun _ p => p, fun _ p => some p,
        fun _ => [], fun _ => none⟩ : DescriptorCollab (List Nat)) [1, 2, 3] = none ∧
    decryptClientRequest
      (⟨id, some, fun _ p => p, fun _ p => some p,
        fun _ => [], fun _ => none⟩ : DescriptorCollab (List Nat)) [1, 2, 3] = none ∧
    decryptClientRequest
      (⟨id, some, fun _ p => p, fun _ _ => none,
        fun _ => [], fun _ => some ([], [], 0)⟩ : DescriptorCollab (List Nat))
      (List.range 20) = none ∧
    decryptClientRequest
      (⟨id, some, fun _ p => p, fun _ p => some p,
        fun _ => [], fun _ => none⟩ : DescriptorCollab (List Nat))
      (List.range 20) = none := by
  refine ⟨?_, ?_, ?_, ?_⟩
  · exact (c3_decryptClientRequest_failures _ _).1 rfl
  · exact (((c3_decryptClientRequest_failures _ _).2 [1, 2, 3] rfl).1 (by decide))
  · exact (((c3_decryptClientRequest_failures _ _).2 (List.range 20) rfl).2.1 rfl)
  · exact (((c3_decryptClientRequest_failures _ _).2 (List.range 20) rfl).2.2 _ rfl rfl)

/-! ## The header copy and transform engine (`copyHeaders`,
`src/proxy/util.go` lines 258-316) -/

/-- The 16-byte IV array `[ivLen]byte`, embedded as a byte list. -/
abbrev IV := List Nat

/-- The all-zero IV `[ivLen]byte{}`, the sentinel for "no encryption". -/
def zeroIV : IV := List.replicate ivLen 0

/-- Modelled from the spec: the stream-cipher interface of the external
`Cipher` collaborator as `copyHeaders` consumes it — a string
encrypt/decrypt pair keyed by the IV (`Decrypt` also returns Go's error
slot as a Bool flag, which `copyHeaders` discards), the fixed alias marker
string `Alias`, and the pseudo-word generator `Jibber`, whose output is
abstracted to a fixed word per cipher value. -/
structure Cipher where
  Encrypt : Str → IV → Str
  Decrypt : Str → IV → Str × Bool
  Alias : Str
  Jibber : Str

/-- The lower-cased header names switched on by `copyHeaders`
(`src/proxy/util.go` lines 267-296), as named byte strings. -/
def scKeyL : Str := "set-cookie".toList

/-- Lower-cased `content-encoding`. -/
def ceKeyL : Str := "content-encoding".toList

/-- Lower-cased `content-type`. -/
def ctKeyL : Str := "content-type".toList

/-- Lower-cased `x-content-encoding`. -/
def xceKeyL : Str := "x-content-encoding".toList

/-- Lower-cased `x-content-type`. -/
def xctKeyL : Str := "x-content-type".toList

/-- The bottom of the `copyHeaders` loop body (`src/proxy/util.go` lines
303-305): split the value on embedded newlines and add each piece under
the key. -/
def addSplit (dst : Header) (k v : Str) : Header :=
  dst ++ (v.splitOn '\n').map (fun vn => (k, vn))

/-- One iteration of the `copyHeaders` loop (`src/proxy/util.go` lines
264-307) on state (destination so far, `setcookies` buffer).  `none`
models the two Go panics on this path: slicing `v[ei+1:di]` with
`ei+1 > di`, and slicing `v[:len(v)-6]` when the decrypted value is
shorter than 6 bytes. -/
def copyStep (gc : Cipher) (enc : Bool) (iv : IV) (st : Header × Str)
    (kv : Str × Str) : Option (Header × Str) :=
  let dst := st.1
  let sc := st.2
  let k := kv.1
  let v := kv.2
  if lowerStr k = scKeyL then
    if iv ≠ zeroIV then
      if enc then some (dst, sc ++ v ++ ['\n'])
      else
        let ei := goIndex v '='
        let di0 := goIndex v ';'
        let di := if di0 = -1 then (v.length : Int) else di0
        if di < ei + 1 then none
        else
          let w := (gc.Decrypt ((v.drop (ei + 1).toNat).take (di - (ei + 1)).toNat) iv).1
          if ¬ gc.Alias.isSuffixOf w then some (dst, sc)
          else if w.length < 6 then none
          else some (addSplit dst k (w.take (w.length - 6)), sc)
    else some (addSplit dst k v, sc)
  else if lowerStr k = ceKeyL ∨ lowerStr k = ctKeyL then
    if enc then some (dst ++ [('X' :: '-' :: k, v)], sc)
    else if iv ≠ zeroIV then some (dst, sc)
    else some (addSplit dst k v, sc)
  else if lowerStr k = xceKeyL ∨ lowerStr k = xctKeyL then
    if ¬ enc then some (dst ++ [(k.drop 2, v)], sc)
    else some (addSplit dst k v, sc)
  else some (addSplit dst k v, sc)

/-- Embeds `copyHeaders` (`src/proxy/util.go` lines 258-316).  The
destination starts empty (the Go code clears `dst` first); after the loop,
a non-empty cookie buffer with a nonzero IV is truncated of its trailing
newline, suffixed with the alias marker, encrypted, and emitted as a
single decoy `Set-Cookie` header. -/
def copyHeaders (src : Header) (gc : Cipher) (enc : Bool) (iv : IV) :
    Option Header :=
  match src.foldlM (copyStep gc enc iv) ([], []) with
  | none => none
  | some st =>
    if 0 < st.2.length ∧ iv ≠ zeroIV then
      some (st.1 ++ [("Set-Cookie".toList,
        gc.Jibber ++ '=' :: gc.Encrypt (truncChar st.2 '\n' ++ gc.Alias) iv
          ++ "; Domain=".toList ++ gc.Jibber ++ ".com; HttpOnly".toList)])
    else some st.1

/-- A nonzero IV used by concrete `copyHeaders` evaluations. -/
def oneIV : IV := List.replicate ivLen 1

/-- A concrete cipher whose alias marker has length 2 (`"ab"`): `Encrypt`
and `Decrypt` are mutually inverse (both the identity), exposing that the
cookie-restore path strips a fixed 6 bytes rather than the marker. -/
def cxCipherC4 : Cipher :=
  ⟨fun s _ => s, fun s _ => (s, true), "ab".toList, "t".toList⟩

/-- C4 counterexample: with the length-2 alias marker `"ab"`, the decrypted
cookie value `"xyzwab"` does end with the marker, so the claim says exactly
`"ab"` is stripped, leaving `"xyzw"`; the code executes `v[:len(v)-6]` and
leaves the empty string instead. -/
theorem c4_strip_six_counterexample :
    cxCipherC4.Alias = "ab".toList ∧
    cxCipherC4.Alias.isSuffixOf ("xyzwab".toList) = true ∧
    copyHeaders [("Set-Cookie".toList, "n=xyzwab".toList)] cxCipherC4 false oneIV =
      some [("Set-Cookie".toList, [])] ∧
    copyHeaders [("Set-Cookie".toList, "n=xyzwab".toList)] cxCipherC4 false oneIV ≠
      some [("Set-Cookie".toList, "xyzw".toList)] :=
  ⟨rfl, by decide, by decide, by decide⟩

/-- C4 (amended): decrypting a `Set-Cookie` value with a nonzero IV, the
code decrypts the substring between the first `=` and the first `;` (or
the end of the string), provided that region is non-negative (otherwise
the slice panics); if the decrypted string does not end with the cipher's
alias marker the cookie is discarded, and otherwise exactly 6 bytes — not
the marker's own length — are stripped from its end (panicking when the
decrypted string is shorter than 6 bytes) before the remainder is added as
a normal value, split on embedded newlines.  The stripped amount equals
the marker only for 6-byte markers. -/
theorem c4_setCookie_decrypt_spec (gc : Cipher) (iv : IV) (v w : Str)
    (hiv : iv ≠ zeroIV)
    (hok : goIndex v '=' + 1 ≤ (if goIndex v ';' = -1 then (v.length : Int) else goIndex v ';'))
    (hw : (gc.Decrypt ((v.drop (goIndex v '=' + 1).toNat).take
        ((if goIndex v ';' = -1 then (v.length : Int) else goIndex v ';')
          - (goIndex v '=' + 1)).toNat) iv).1 = w) :
    copyHeaders [("Set-Cookie".toList, v)] gc false iv =
      if gc.Alias.isSuffixOf w then
        (if w.length < 6 then none
         else some (((w.take (w.length - 6)).splitOn '\n').map
            (fun vn => ("Set-Cookie".toList, vn))))
      else some [] := by
  have hkey : lowerStr ("Set-Cookie".toList) = scKeyL := by decide
  have hnotlt : ¬ ((if goIndex v ';' = -1 then (v.length : Int) else goIndex v ';')
      < goIndex v '=' + 1) := by omega
  have hstep : copyStep gc false iv ([], []) ("Set-Cookie".toList, v) =
      if gc.Alias.isSuffixOf w then
        (if w.length < 6 then none
         else some (addSplit [] ("Set-Cookie".toList) (w.take (w.length - 6)), []))
      else some ([], []) := by
    simp only [copyStep, hkey, if_pos rfl, if_neg hnotlt, hiv, ne_eq,
      not_false_eq_true, if_true, Bool.false_eq_true, if_false, hw]
    by_cases hsuf : gc.Alias.isSuffixOf w
    · simp [hsuf]
    · simp [hsuf]
  by_cases hsuf : gc.Alias.isSuffixOf w
  · by_cases hlen : w.length < 6
    · simp only [copyHeaders, List.foldlM_cons, hstep, if_pos hsuf, if_pos hlen]
      simp [hsuf, hlen]
    · simp only [copyHeaders, List.foldlM_cons, hstep, if_pos hsuf, if_neg hlen]
      simp only [List.foldlM_nil, Option.some_bind]
      simp [addSplit, hsuf, hlen]
  · simp only [copyHeaders, List.foldlM_cons, hstep, if_neg hsuf]
    simp [hsuf]

/-- A concrete cipher with the 6-byte alias marker `"abcdef"`. -/
def wCipherC4 : Cipher :=
  ⟨fun s _ => s, fun s _ => (s, true), "abcdef".toList, "t".toList⟩

/-- C4 witness: on the value `"n=xyzabcdef"` the region between `=` and the
end decrypts to `"xyzabcdef"`, the 6-byte marker is stripped, and the
cookie survives as `"xyz"`. -/
theorem c4_setCookie_decrypt_spec_witness :
    copyHeaders [("Set-Cookie".toList, "n=xyzabcdef".toList)] wCipherC4 false oneIV =
      some [("Set-Cookie".toList, "xyz".toList)] := by
  have h := c4_setCookie_decrypt_spec wCipherC4 oneIV ("n=xyzabcdef".toList)
    ("xyzabcdef".toList) (by decide) (by decide) (by decide)
  rw [h]
  decide

/-! ## C2: the encrypt-then-decrypt header round trip -/

/-- Destination entries produced by the `copyHeaders` loop in encrypting
mode with a nonzero IV (the cookie buffer aside). -/
def encEntries : Header → Header
  | [] => []
  | (k, v) :: rest =>
    (if lowerStr k = scKeyL then []
     else if lowerStr k = ceKeyL ∨ lowerStr k = ctKeyL then
       [('X' :: '-' :: k, v)]
     else (v.splitOn '\n').map (fun vn => (k, vn)))
    ++ encEntries rest

/-- The `setcookies` buffer accumulated by the `copyHeaders` loop in
encrypting mode with a nonzero IV. -/
def encCookieBuf : Header → Str
  | [] => []
  | (k, v) :: rest =>
    (if lowerStr k = scKeyL then v ++ ['\n'] else []) ++ encCookieBuf rest

/-- Destination entries produced by the `copyHeaders` loop in decrypting
mode with a nonzero IV on an input without `Set-Cookie` entries. -/
def decEntries : Header → Header
  | [] => []
  | (k, v) :: rest =>
    (if lowerStr k = ceKeyL ∨ lowerStr k = ctKeyL then []
     else if lowerStr k = xceKeyL ∨ lowerStr k = xctKeyL then
       [(k.drop 2, v)]
     else (v.splitOn '\n').map (fun vn => (k, vn)))
    ++ decEntries rest

/-- The blob sealed into the decoy `Set-Cookie` header. -/
def cookieBlob (gc : Cipher) (src : Header) : Str :=
  truncChar (encCookieBuf src) '\n' ++ gc.Alias

theorem copyStep_enc_cookie (gc : Cipher) (iv : IV) (dst : Header) (sc : Str)
    (k v : Str) (hiv : iv ≠ zeroIV) (h : lowerStr k = scKeyL) :
    copyStep gc true iv (dst, sc) (k, v) = some (dst, sc ++ v ++ ['\n']) := by
  simp [copyStep, h, hiv]

theorem copyStep_enc_ct (gc : Cipher) (iv : IV) (dst : Header) (sc : Str)
    (k v : Str)
    (h : lowerStr k = ceKeyL ∨ lowerStr k = ctKeyL) :
    copyStep gc true iv (dst, sc) (k, v) = some (dst ++ [('X' :: '-' :: k, v)], sc) := by
  have hns : lowerStr k ≠ scKeyL := by
    rcases h with h | h <;> rw [h] <;> decide
  simp [copyStep, hns, h]

theorem copyStep_enc_other (gc : Cipher) (iv : IV) (dst : Header) (sc : Str)
    (k v : Str)
    (h1 : lowerStr k ≠ scKeyL)
    (h2 : ¬ (lowerStr k = ceKeyL ∨ lowerStr k = ctKeyL)) :
    copyStep gc true iv (dst, sc) (k, v) = some (addSplit dst k v, sc) := by
  by_cases h3 : lowerStr k = xceKeyL ∨ lowerStr k = xctKeyL
  · simp [copyStep, h1, h2, h3]
  · simp [copyStep, h1, h2, h3]

/-- The `copyHeaders` loop in encrypting mode with a nonzero IV never
panics and produces exactly `encEntries` and the `encCookieBuf` buffer. -/
theorem copyHeaders_encFold (gc : Cipher) (iv : IV) (hiv : iv ≠ zeroIV) :
    ∀ (src : Header) (dst0 : Header) (sc0 : Str),
      src.foldlM (copyStep gc true iv) (dst0, sc0) =
        some (dst0 ++ encEntries src, sc0 ++ encCookieBuf src) := by
  intro src
  induction src with
  | nil => intro dst0 sc0; simp [encEntries, encCookieBuf]
  | cons p rest ih =>
    obtain ⟨k, v⟩ := p
    intro dst0 sc0
    rw [List.foldlM_cons]
    by_cases h1 : lowerStr k = scKeyL
    · rw [copyStep_enc_cookie gc iv dst0 sc0 k v hiv h1]
      rw [Option.bind_eq_bind, Option.some_bind, ih]
      simp [encEntries, encCookieBuf, h1]
    · by_cases h2 : lowerStr k = ceKeyL ∨ lowerStr k = ctKeyL
      · rw [copyStep_enc_ct gc iv dst0 sc0 k v h2]
        rw [Option.bind_eq_bind, Option.some_bind, ih]
        simp [encEntries, encCookieBuf, h1, h2]
      · rw [copyStep_enc_other gc iv dst0 sc0 k v h1 h2]
        rw [Option.bind_eq_bind, Option.some_bind, ih]
        simp [encEntries, encCookieBuf, addSplit, h1, h2]

theorem copyStep_dec_ct (gc : Cipher) (iv : IV) (dst : Header) (sc : Str)
    (k v : Str) (hiv : iv ≠ zeroIV)
    (h : lowerStr k = ceKeyL ∨ lowerStr k = ctKeyL) :
    copyStep gc false iv (dst, sc) (k, v) = some (dst, sc) := by
  have hns : lowerStr k ≠ scKeyL := by
    rcases h with h | h <;> rw [h] <;> decide
  simp [copyStep, hns, h, hiv]

theorem copyStep_dec_xct (gc : Cipher) (iv : IV) (dst : Header) (sc : Str)
    (k v : Str)
    (h : lowerStr k = xceKeyL ∨ lowerStr k = xctKeyL) :
    copyStep gc false iv (dst, sc) (k, v) = some (dst ++ [(k.drop 2, v)], sc) := by
  have hns : lowerStr k ≠ scKeyL := by
    rcases h with h | h <;> rw [h] <;> decide
  have hct : ¬ (lowerStr k = ceKeyL ∨ lowerStr k = ctKeyL) := by
    rcases h with h | h <;> rw [h] <;> decide
  simp [copyStep, hns, hct, h]

theorem copyStep_dec_other (gc : Cipher) (iv : IV) (dst : Header) (sc : Str)
    (k v : Str)
    (h1 : lowerStr k ≠ scKeyL)
    (h2 : ¬ (lowerStr k = ceKeyL ∨ lowerStr k = ctKeyL))
    (h3 : ¬ (lowerStr k = xceKeyL ∨ lowerStr k = xctKeyL)) :
    copyStep gc false iv (dst, sc) (k, v) = some (addSplit dst k v, sc) := by
  simp [copyStep, h1, h2, h3]

/-- Every destination entry produced by the encrypting pass has a name
that does not lower to `set-cookie`. -/
theorem encEntries_not_cookie (src : Header) :
    ∀ p ∈ encEntries src, lowerStr p.1 ≠ scKeyL := by
  induction src with
  | nil => simp [encEntries]
  | cons q rest ih =>
    obtain ⟨k, v⟩ := q
    intro p hp
    simp only [encEntries, List.mem_append] at hp
    rcases hp with hp | hp
    · by_cases h1 : lowerStr k = scKeyL
      · simp [h1] at hp
      · by_cases h2 : lowerStr k = ceKeyL ∨ lowerStr k = ctKeyL
        · rw [if_neg h1, if_pos h2] at hp
          simp only [List.mem_singleton] at hp
          subst hp
          intro hcon
          have hhead := congrArg List.head? hcon
          simp [lowerStr, scKeyL] at hhead
        · rw [if_neg h1, if_neg h2] at hp
          obtain ⟨vn, _, rfl⟩ := List.mem_map.mp hp
          exact h1
    · exact ih p hp

/-- The `copyHeaders` loop in decrypting mode with a nonzero IV, on a
header list without `set-cookie` names, never panics, leaves the cookie
buffer untouched, and produces exactly `decEntries`. -/
theorem copyHeaders_decFold (gc : Cipher) (iv : IV) (hiv : iv ≠ zeroIV) :
    ∀ (l : Header), (∀ p ∈ l, lowerStr p.1 ≠ scKeyL) →
      ∀ (dst0 : Header) (sc0 : Str),
        l.foldlM (copyStep gc false iv) (dst0, sc0) =
          some (dst0 ++ decEntries l, sc0) := by
  intro l
  induction l with
  | nil => intro _ dst0 sc0; simp [decEntries]
  | cons q rest ih =>
    obtain ⟨k, v⟩ := q
    intro hkeys dst0 sc0
    have hk : lowerStr k ≠ scKeyL := hkeys (k, v) (List.mem_cons_self _ _)
    have hrest : ∀ p ∈ rest, lowerStr p.1 ≠ scKeyL :=
      fun p hp => hkeys p (List.mem_cons_of_mem _ hp)
    rw [List.foldlM_cons]
    by_cases h2 : lowerStr k = ceKeyL ∨ lowerStr k = ctKeyL
    · rw [copyStep_dec_ct gc iv dst0 sc0 k v hiv h2]
      rw [Option.bind_eq_bind, Option.some_bind, ih hrest]
      simp [decEntries, h2]
    · by_cases h3 : lowerStr k = xceKeyL ∨ lowerStr k = xctKeyL
      · rw [copyStep_dec_xct gc iv dst0 sc0 k v h3]
        rw [Option.bind_eq_bind, Option.some_bind, ih hrest]
        simp [decEntries, h2, h3]
      · rw [copyStep_dec_other gc iv dst0 sc0 k v hk h2 h3]
        rw [Option.bind_eq_bind, Option.some_bind, ih hrest]
        simp [decEntries, addSplit, h2, h3]

/-- `strings.Index` finds the separator right after a prefix free of it. -/
theorem goIndex_append_cons (pre post : Str) (c : Char) (h : c ∉ pre) :
    goIndex (pre ++ c :: post) c = (pre.length : Int) := by
  induction pre with
  | nil => simp [goIndex]
  | cons a t ih =>
    have ha : ¬ a = c := by
      intro heq
      exact h (by simp [heq])
    have ht : c ∉ t := fun hm => h (List.mem_cons_of_mem _ hm)
    simp only [List.cons_append, goIndex, if_neg ha, List.append_eq, ih ht]
    have hne : ¬ ((t.length : Int) = -1) := by omega
    simp only [if_neg hne, List.length_cons]
    push_cast
    ring

/-- Generic evaluation of the decrypting `set-cookie` branch of one
`copyHeaders` iteration, under the no-panic bound on the `=`/`;`
positions. -/
theorem copyStep_dec_cookie (gc : Cipher) (iv : IV) (dst : Header) (sc : Str)
    (k v w : Str) (hiv : iv ≠ zeroIV) (hk : lowerStr k = scKeyL)
    (hok : goIndex v '=' + 1 ≤ (if goIndex v ';' = -1 then (v.length : Int) else goIndex v ';'))
    (hw : (gc.Decrypt ((v.drop (goIndex v '=' + 1).toNat).take
        ((if goIndex v ';' = -1 then (v.length : Int) else goIndex v ';')
          - (goIndex v '=' + 1)).toNat) iv).1 = w) :
    copyStep gc false iv (dst, sc) (k, v) =
      if gc.Alias.isSuffixOf w then
        (if w.length < 6 then none
         else some (addSplit dst k (w.take (w.length - 6)), sc))
      else some (dst, sc) := by
  have hnotlt : ¬ ((if goIndex v ';' = -1 then (v.length : Int) else goIndex v ';')
      < goIndex v '=' + 1) := by omega
  simp only [copyStep, hk, if_pos rfl, if_neg hnotlt, hiv, ne_eq,
    not_false_eq_true, if_true, Bool.false_eq_true, if_false, hw]
  by_cases hsuf : gc.Alias.isSuffixOf w
  · simp [hsuf]
  · simp [hsuf]

/-- Evaluation of one decrypting `copyHeaders` iteration on the combined
decoy `Set-Cookie` header produced by the encrypting pass: the ciphertext
between the first `=` and the first `;` is recovered exactly, decrypts to
the blob ending in the 6-byte alias marker, and the blob survives with the
marker stripped. -/
theorem copyStep_dec_combined (gc : Cipher) (iv : IV) (dst : Header) (sc : Str)
    (X C : Str)
    (hiv : iv ≠ zeroIV)
    (halias : gc.Alias.length = 6)
    (hJeq : '=' ∉ gc.Jibber) (hJsemi : ';' ∉ gc.Jibber) (hCsemi : ';' ∉ C)
    (hdec : (gc.Decrypt C iv).1 = X ++ gc.Alias) :
    copyStep gc false iv (dst, sc) ("Set-Cookie".toList,
        gc.Jibber ++ '=' :: C ++ "; Domain=".toList ++ gc.Jibber ++ ".com; HttpOnly".toList) =
      some (addSplit dst ("Set-Cookie".toList) X, sc) := by
  set J := gc.Jibber with hJ
  set v : Str := J ++ '=' :: C ++ "; Domain=".toList ++ J ++ ".com; HttpOnly".toList with hv
  have hsemi : ("; Domain=".toList : Str) = ';' :: " Domain=".toList := by decide
  have hshape1 : v = J ++ '=' :: (C ++ ';' ::
      (" Domain=".toList ++ J ++ ".com; HttpOnly".toList)) := by
    rw [hv, hsemi]
    simp [List.append_assoc, List.cons_append]
  have hshape2 : v = (J ++ '=' :: C) ++ ';' ::
      (" Domain=".toList ++ J ++ ".com; HttpOnly".toList) := by
    rw [hshape1]
    simp [List.append_assoc, List.cons_append]
  have hshape3 : v = (J ++ ['=']) ++ (C ++ ';' ::
      (" Domain=".toList ++ J ++ ".com; HttpOnly".toList)) := by
    rw [hshape1]
    simp [List.append_assoc, List.cons_append]
  have hei : goIndex v '=' = (J.length : Int) := by
    rw [hshape1]
    exact goIndex_append_cons _ _ '=' hJeq
  have hsemiv : ';' ∉ J ++ '=' :: C := by
    intro hm
    rcases List.mem_append.mp hm with hm | hm
    · exact hJsemi hm
    · rcases List.mem_cons.mp hm with hm | hm
      · exact absurd hm (by decide)
      · exact hCsemi hm
  have hdi : goIndex v ';' = ((J.length + 1 + C.length : Nat) : Int) := by
    rw [hshape2, goIndex_append_cons _ _ ';' hsemiv]
    simp [List.length_append]
    ring
  have hdine : ¬ (goIndex v ';' = -1) := by rw [hdi]; omega
  have hok : goIndex v '=' + 1 ≤
      (if goIndex v ';' = -1 then (v.length : Int) else goIndex v ';') := by
    rw [if_neg hdine, hei, hdi]
    omega
  have hidx1 : (goIndex v '=' + 1).toNat = J.length + 1 := by
    rw [hei]; omega
  have hidx2 : ((if goIndex v ';' = -1 then (v.length : Int) else goIndex v ';')
      - (goIndex v '=' + 1)).toNat = C.length := by
    rw [if_neg hdine, hei, hdi]
    push_cast
    omega
  have hextract : ((v.drop (goIndex v '=' + 1).toNat).take
      ((if goIndex v ';' = -1 then (v.length : Int) else goIndex v ';')
        - (goIndex v '=' + 1)).toNat) = C := by
    rw [hidx1, hidx2, hshape3]
    have hlen : J.length + 1 = (J ++ ['=']).length := by simp
    rw [hlen, List.drop_left]
    have : C.length = (C : Str).length := rfl
    exact List.take_left _ _
  have hw : (gc.Decrypt ((v.drop (goIndex v '=' + 1).toNat).take
      ((if goIndex v ';' = -1 then (v.length : Int) else goIndex v ';')
        - (goIndex v '=' + 1)).toNat) iv).1 = X ++ gc.Alias := by
    rw [hextract, hdec]
  rw [copyStep_dec_cookie gc iv dst sc _ v (X ++ gc.Alias) hiv (by decide) hok hw]
  have hsuf : gc.Alias.isSuffixOf (X ++ gc.Alias) = true := by
    rw [List.isSuffixOf_iff_suffix]
    exact List.suffix_append _ _
  rw [if_pos hsuf]
  have hlen6 : (X ++ gc.Alias).length = X.length + 6 := by
    simp [halias]
  have hnl : ¬ (X ++ gc.Alias).length < 6 := by omega
  rw [if_neg hnl]
  have htake : (X ++ gc.Alias).take ((X ++ gc.Alias).length - 6) = X := by
    rw [hlen6]
    have : X.length + 6 - 6 = X.length := by omega
    rw [this]
    exact List.take_left _ _
  rw [htake]

theorem headerValues_append (a b : Header) (key : Str) :
    headerValues (a ++ b) key = headerValues a key ++ headerValues b key := by
  simp [headerValues, List.filter_append]

theorem headerValues_cons_eq (k v : Str) (t : Header) (key : Str)
    (h : lowerStr k = key) :
    headerValues ((k, v) :: t) key = v :: headerValues t key := by
  simp [headerValues, List.filter_cons, h]

theorem headerValues_cons_ne (k v : Str) (t : Header) (key : Str)
    (h : lowerStr k ≠ key) :
    headerValues ((k, v) :: t) key = headerValues t key := by
  simp [headerValues, List.filter_cons, h]

theorem headerValues_nil_of_keys (h : Header) (key : Str)
    (hk : ∀ p ∈ h, lowerStr p.1 ≠ key) : headerValues h key = [] := by
  induction h with
  | nil => simp [headerValues]
  | cons q t ih =>
    obtain ⟨k, v⟩ := q
    rw [headerValues_cons_ne k v t key (hk (k, v) (List.mem_cons_self _ _))]
    exact ih (fun p hp => hk p (List.mem_cons_of_mem _ hp))

theorem headerValues_map_const (k : Str) (vs : List Str) (key : Str) :
    headerValues (vs.map (fun vn => (k, vn))) key =
      if lowerStr k = key then vs else [] := by
  induction vs with
  | nil => simp [headerValues]
  | cons w ws ih =>
    by_cases h : lowerStr k = key
    · simp only [List.map_cons, headerValues_cons_eq k w _ key h, ih, if_pos h]
    · simp only [List.map_cons, headerValues_cons_ne k w _ key h, ih, if_neg h]

theorem decEntries_append (a b : Header) :
    decEntries (a ++ b) = decEntries a ++ decEntries b := by
  induction a with
  | nil => simp [decEntries]
  | cons q t ih =>
    obtain ⟨k, v⟩ := q
    simp [decEntries, ih, List.append_assoc]

/-- The cookie buffer is the concatenation of all `Set-Cookie` values,
each followed by a newline. -/
theorem encCookieBuf_eq (src : Header) :
    encCookieBuf src = ((headerValues src scKeyL).map (fun s => s ++ ['\n'])).flatten := by
  induction src with
  | nil => simp [encCookieBuf, headerValues]
  | cons q t ih =>
    obtain ⟨k, v⟩ := q
    by_cases h : lowerStr k = scKeyL
    · rw [show encCookieBuf ((k, v) :: t) = (v ++ ['\n']) ++ encCookieBuf t from by
        simp [encCookieBuf, h]]
      rw [headerValues_cons_eq k v t scKeyL h, ih]
      simp
    · rw [show encCookieBuf ((k, v) :: t) = encCookieBuf t from by simp [encCookieBuf, h]]
      rw [headerValues_cons_ne k v t scKeyL h, ih]

theorem flatten_map_concat (vs : List Str) (c : Char) (hne : vs ≠ []) :
    (vs.map (fun s => s ++ [c])).flatten = List.intercalate [c] vs ++ [c] := by
  induction vs with
  | nil => exact absurd rfl hne
  | cons w ws ih =>
    cases ws with
    | nil => simp [List.intercalate]
    | cons u us =>
      have hne' : u :: us ≠ [] := by simp
      rw [List.map_cons, List.flatten_cons, ih hne']
      rw [show List.intercalate [c] (w :: u :: us) =
        w ++ [c] ++ List.intercalate [c] (u :: us) from by
          simp [List.intercalate, List.intersperse_cons_cons]]
      simp [List.append_assoc]

theorem truncChar_concat (s : Str) (c : Char) : truncChar (s ++ [c]) c = s := by
  simp [truncChar, List.getLast?_concat, List.dropLast_concat]

/-- Decrypting-pass output names never lower to `set-cookie` when the
input names do not. -/
theorem decEntries_not_cookie (l : Header) (hl : ∀ p ∈ l, lowerStr p.1 ≠ scKeyL) :
    ∀ p ∈ decEntries l, lowerStr p.1 ≠ scKeyL := by
  induction l with
  | nil => simp [decEntries]
  | cons q t ih =>
    obtain ⟨k, v⟩ := q
    have hk := hl (k, v) (List.mem_cons_self _ _)
    have ht := fun p hp => hl p (List.mem_cons_of_mem _ hp)
    intro p hp
    simp only [decEntries, List.mem_append] at hp
    rcases hp with hp | hp
    · by_cases h1 : lowerStr k = ceKeyL ∨ lowerStr k = ctKeyL
      · simp [h1] at hp
      · by_cases h2 : lowerStr k = xceKeyL ∨ lowerStr k = xctKeyL
        · rw [if_neg h1, if_pos h2] at hp
          simp only [List.mem_singleton] at hp
          subst hp
          have hdrop : lowerStr (k.drop 2) = (lowerStr k).drop 2 := by
            simp [lowerStr, List.map_drop]
          rcases h2 with h2 | h2 <;> rw [hdrop, h2] <;> decide
        · rw [if_neg h1, if_neg h2] at hp
          obtain ⟨vn, _, rfl⟩ := List.mem_map.mp hp
          exact hk
    · exact ih ht p hp

/-- Lower-casing an `X-`-prefixed name. -/
theorem lowerStr_X_cons (k : Str) :
    lowerStr ('X' :: '-' :: k) = 'x' :: '-' :: lowerStr k := by
  have h1 : Char.toLower 'X' = 'x' := by decide
  have h2 : Char.toLower '-' = '-' := by decide
  simp [lowerStr, h1, h2]

/-- Content metadata values survive the encrypt-then-decrypt header pass
exactly, for maps without `X-Content-` names. -/
theorem decEnc_preserves (key : Str) (hkey : key = ctKeyL ∨ key = ceKeyL) :
    ∀ (src : Header),
      (∀ p ∈ src, lowerStr p.1 ≠ xceKeyL ∧ lowerStr p.1 ≠ xctKeyL) →
      headerValues (decEntries (encEntries src)) key = headerValues src key := by
  intro src
  induction src with
  | nil => intro _; simp [encEntries, decEntries, headerValues]
  | cons q rest ih =>
    obtain ⟨k, v⟩ := q
    intro hnx
    have hrest := fun p hp => hnx p (List.mem_cons_of_mem _ hp)
    have hkx := hnx (k, v) (List.mem_cons_self _ _)
    by_cases h1 : lowerStr k = scKeyL
    · rw [show encEntries ((k, v) :: rest) = encEntries rest from by
        simp [encEntries, h1]]
      rw [ih hrest]
      have hne : lowerStr k ≠ key := by
        rw [h1]; rcases hkey with h | h <;> rw [h] <;> decide
      rw [headerValues_cons_ne k v rest key hne]
    · by_cases h2 : lowerStr k = ceKeyL ∨ lowerStr k = ctKeyL
      · rw [show encEntries ((k, v) :: rest) = [('X' :: '-' :: k, v)] ++ encEntries rest from by
          simp [encEntries, h1, h2]]
        rw [decEntries_append, headerValues_append, ih hrest]
        have hXnotct : ¬ (lowerStr ('X' :: '-' :: k) = ceKeyL ∨
            lowerStr ('X' :: '-' :: k) = ctKeyL) := by
          rw [lowerStr_X_cons]
          rintro (hc | hc)
          · have := congrArg List.head? hc
            simp [ceKeyL] at this
          · have := congrArg List.head? hc
            simp [ctKeyL] at this
        have hXxct : lowerStr ('X' :: '-' :: k) = xceKeyL ∨
            lowerStr ('X' :: '-' :: k) = xctKeyL := by
          rw [lowerStr_X_cons]
          rcases h2 with h | h
          · left; rw [h]; decide
          · right; rw [h]; decide
        rw [show decEntries [('X' :: '-' :: k, v)] = [(k, v)] from by
          simp [decEntries, hXnotct, hXxct]]
        by_cases h4 : lowerStr k = key
        · rw [headerValues_cons_eq k v rest key h4,
            headerValues_cons_eq k v ([] : Header) key h4]
          simp [headerValues]
        · rw [headerValues_cons_ne k v rest key h4,
            headerValues_cons_ne k v ([] : Header) key h4]
          simp [headerValues]
      · have h3 : ¬ (lowerStr k = xceKeyL ∨ lowerStr k = xctKeyL) := by
          rintro (h | h)
          · exact hkx.1 h
          · exact hkx.2 h
        rw [show encEntries ((k, v) :: rest) =
            (v.splitOn '\n').map (fun vn => (k, vn)) ++ encEntries rest from by
          simp [encEntries, h1, h2]]
        rw [decEntries_append, headerValues_append, ih hrest]
        have hne : lowerStr k ≠ key := by
          rcases hkey with h | h <;> rw [h] <;> intro hc <;> exact h2 (by simp [hc])
        have hmapnil : ∀ vns : List Str,
            headerValues (decEntries (vns.map (fun vn => (k, vn)))) key = [] := by
          intro vns
          induction vns with
          | nil => simp [decEntries, headerValues]
          | cons w ws ihw =>
            rw [List.map_cons]
            rw [show decEntries ((k, w) :: ws.map (fun vn => (k, vn))) =
                (w.splitOn '\n').map (fun vn => (k, vn)) ++
                  decEntries (ws.map (fun vn => (k, vn))) from by
              simp [decEntries, h2, h3]]
            rw [headerValues_append, ihw, headerValues_map_const]
            simp [hne]
        rw [hmapnil]
        rw [headerValues_cons_ne k v rest key hne]
        simp

/-- C2 (amended): `copyHeaders` with `enc=true` and a nonzero IV followed
by `copyHeaders` with `enc=false`, the same cipher and the same IV
reproduces the original `Set-Cookie` values (with original multiplicity)
and the original `Content-Type` and `Content-Encoding` values, provided
additionally that the alias marker is 6 bytes long, the decoy token name
contains no `=` or `;`, the encrypted cookie blob contains no `;`, the
source `Set-Cookie` values contain no newline, and the source carries no
`X-Content-Type`/`X-Content-Encoding` names. -/
theorem c2_copyHeaders_roundTrip (gc : Cipher) (iv : IV) (src : Header)
    (hiv : iv ≠ zeroIV)
    (halias : gc.Alias.length = 6)
    (hJeq : '=' ∉ gc.Jibber) (hJsemi : ';' ∉ gc.Jibber)
    (hCsemi : ';' ∉ gc.Encrypt (cookieBlob gc src) iv)
    (hinv : (gc.Decrypt (gc.Encrypt (cookieBlob gc src) iv) iv).1 = cookieBlob gc src)
    (hnl : ∀ p ∈ src, lowerStr p.1 = scKeyL → '\n' ∉ p.2)
    (hnx : ∀ p ∈ src, lowerStr p.1 ≠ xceKeyL ∧ lowerStr p.1 ≠ xctKeyL) :
    ∃ d1 d2, copyHeaders src gc true iv = some d1 ∧
      copyHeaders d1 gc false iv = some d2 ∧
      headerValues d2 scKeyL = headerValues src scKeyL ∧
      headerValues d2 ctKeyL = headerValues src ctKeyL ∧
      headerValues d2 ceKeyL = headerValues src ceKeyL := by
  have hencf := copyHeaders_encFold gc iv hiv src [] []
  by_cases hvs : headerValues src scKeyL = []
  · have hbuf : encCookieBuf src = [] := by
      rw [encCookieBuf_eq, hvs]; simp
    have h1 : copyHeaders src gc true iv = some (encEntries src) := by
      simp only [copyHeaders, hencf, List.nil_append]
      rw [hbuf]
      simp
    have h2 : copyHeaders (encEntries src) gc false iv =
        some (decEntries (encEntries src)) := by
      have hd := copyHeaders_decFold gc iv hiv (encEntries src)
        (encEntries_not_cookie src) [] []
      simp only [copyHeaders, hd, List.nil_append]
      simp
    refine ⟨_, _, h1, h2, ?_, ?_, ?_⟩
    · rw [headerValues_nil_of_keys _ _
        (decEntries_not_cookie _ (encEntries_not_cookie src)), hvs]
    · exact decEnc_preserves ctKeyL (Or.inl rfl) src hnx
    · exact decEnc_preserves ceKeyL (Or.inr rfl) src hnx
  · have hflat : encCookieBuf src =
        List.intercalate ['\n'] (headerValues src scKeyL) ++ ['\n'] := by
      rw [encCookieBuf_eq]
      exact flatten_map_concat _ '\n' hvs
    have htr : truncChar (encCookieBuf src) '\n' =
        List.intercalate ['\n'] (headerValues src scKeyL) := by
      rw [hflat, truncChar_concat]
    have hlenpos : 0 < (encCookieBuf src).length := by
      rw [hflat]; simp
    have h1 : copyHeaders src gc true iv = some (encEntries src ++
        [("Set-Cookie".toList, gc.Jibber ++ '=' ::
          gc.Encrypt (cookieBlob gc src) iv ++ "; Domain=".toList ++
          gc.Jibber ++ ".com; HttpOnly".toList)]) := by
      simp only [copyHeaders, hencf, List.nil_append]
      rw [if_pos ⟨hlenpos, hiv⟩]
      rfl
    have hdecf := copyHeaders_decFold gc iv hiv (encEntries src)
      (encEntries_not_cookie src) [] []
    have hdec' : (gc.Decrypt (gc.Encrypt (cookieBlob gc src) iv) iv).1 =
        truncChar (encCookieBuf src) '\n' ++ gc.Alias := by
      rw [hinv]; rfl
    have hcomb := copyStep_dec_combined gc iv (decEntries (encEntries src)) []
      (truncChar (encCookieBuf src) '\n') (gc.Encrypt (cookieBlob gc src) iv)
      hiv halias hJeq hJsemi hCsemi hdec'
    simp only [List.nil_append] at hdecf
    have hfold2 : (encEntries src ++
        [("Set-Cookie".toList, gc.Jibber ++ '=' ::
          gc.Encrypt (cookieBlob gc src) iv ++ "; Domain=".toList ++
          gc.Jibber ++ ".com; HttpOnly".toList)]).foldlM
          (copyStep gc false iv) (([], []) : Header × Str) =
        some (addSplit (decEntries (encEntries src)) ("Set-Cookie".toList)
          (truncChar (encCookieBuf src) '\n'), []) := by
      rw [List.foldlM_append, hdecf, Option.bind_eq_bind, Option.some_bind,
        List.foldlM_cons, hcomb, Option.bind_eq_bind, Option.some_bind,
        List.foldlM_nil]
      rfl
    have h2 : copyHeaders (encEntries src ++
        [("Set-Cookie".toList, gc.Jibber ++ '=' ::
          gc.Encrypt (cookieBlob gc src) iv ++ "; Domain=".toList ++
          gc.Jibber ++ ".com; HttpOnly".toList)]) gc false iv =
        some (addSplit (decEntries (encEntries src)) ("Set-Cookie".toList)
          (truncChar (encCookieBuf src) '\n')) := by
      unfold copyHeaders
      rw [hfold2]
      simp
    have hnomem : ∀ l ∈ headerValues src scKeyL, '\n' ∉ l := by
      intro l hl
      obtain ⟨p, hpf, rfl⟩ := List.mem_map.mp hl
      have hmem := List.mem_filter.mp hpf
      exact hnl p hmem.1 (by simpa using hmem.2)
    have hsplit : (truncChar (encCookieBuf src) '\n').splitOn '\n' =
        headerValues src scKeyL := by
      rw [htr]
      exact List.splitOn_intercalate _ '\n' hnomem hvs
    have hSClow : lowerStr ("Set-Cookie".toList) = scKeyL := by decide
    refine ⟨_, _, h1, h2, ?_, ?_, ?_⟩
    · rw [show addSplit (decEntries (encEntries src)) ("Set-Cookie".toList)
          (truncChar (encCookieBuf src) '\n') =
          decEntries (encEntries src) ++
            ((truncChar (encCookieBuf src) '\n').splitOn '\n').map
              (fun vn => ("Set-Cookie".toList, vn)) from rfl]
      rw [headerValues_append,
        headerValues_nil_of_keys _ _
          (decEntries_not_cookie _ (encEntries_not_cookie src)),
        headerValues_map_const, if_pos hSClow, hsplit]
      simp
    · rw [show addSplit (decEntries (encEntries src)) ("Set-Cookie".toList)
          (truncChar (encCookieBuf src) '\n') =
          decEntries (encEntries src) ++
            ((truncChar (encCookieBuf src) '\n').splitOn '\n').map
              (fun vn => ("Set-Cookie".toList, vn)) from rfl]
      rw [headerValues_append, headerValues_map_const,
        if_neg (by rw [hSClow]; decide), decEnc_preserves ctKeyL (Or.inl rfl) src hnx]
      simp
    · rw [show addSplit (decEntries (encEntries src)) ("Set-Cookie".toList)
          (truncChar (encCookieBuf src) '\n') =
          decEntries (encEntries src) ++
            ((truncChar (encCookieBuf src) '\n').splitOn '\n').map
              (fun vn => ("Set-Cookie".toList, vn)) from rfl]
      rw [headerValues_append, headerValues_map_const,
        if_neg (by rw [hSClow]; decide), decEnc_preserves ceKeyL (Or.inr rfl) src hnx]
      simp

def cxCipherC2 : Cipher :=
  ⟨fun s _ => s, fun s _ => (s, true), "ab".toList, "t".toList⟩

def cxSrcC2 : Header := [("Set-Cookie".toList, "k=abcdef".toList)]

def cxMidC2 : Header :=
  [("Set-Cookie".toList, "t=k=abcdefab; Domain=t.com; HttpOnly".toList)]

theorem c2_strip_six_counterexample :
    (∀ (s : Str) (ivx : IV), (cxCipherC2.Decrypt (cxCipherC2.Encrypt s ivx) ivx).1 = s) ∧
    copyHeaders cxSrcC2 cxCipherC2 true oneIV = some cxMidC2 ∧
    copyHeaders cxMidC2 cxCipherC2 false oneIV =
      some [("Set-Cookie".toList, "k=ab".toList)] ∧
    headerValues cxSrcC2 scKeyL = ["k=abcdef".toList] ∧
    "k=ab".toList ≠ "k=abcdef".toList :=
  ⟨fun _ _ => rfl, by decide, by decide, by decide, by decide⟩

def wCipherC2 : Cipher :=
  ⟨fun s _ => s, fun s _ => (s, true), "abcdef".toList, "tok".toList⟩

def wSrcC2 : Header :=
  [("Set-Cookie".toList, "k=v".toList), ("Content-Type".toList, "text/html".toList)]

theorem c2_copyHeaders_roundTrip_witness :
    ∃ d1 d2, copyHeaders wSrcC2 wCipherC2 true oneIV = some d1 ∧
      copyHeaders d1 wCipherC2 false oneIV = some d2 ∧
      headerValues d2 scKeyL = headerValues wSrcC2 scKeyL ∧
      headerValues d2 ctKeyL = headerValues wSrcC2 ctKeyL ∧
      headerValues d2 ceKeyL = headerValues wSrcC2 ceKeyL :=
  c2_copyHeaders_roundTrip wCipherC2 oneIV wSrcC2 (by decide) (by decide)
    (by decide) (by decide) (by decide) (by decide) (by decide) (by decide)
